import Mathlib

/-!
Verification development for the upload-visualize app core: the batch
ingestion pipeline (`ImageUpload.tsx` together with the parent page's
callbacks) and the analysis aggregation logic (`AnalysisPanel.tsx`).

Modelling conventions:
* JS numbers are modelled by `ℚ`/`ℤ`/`ℕ`; a computation whose JS value is
  non-finite (`NaN`/`Infinity`, arising from division by zero) is `none` in
  an `Option`-valued model.
* `Math.round x = ⌊x + 1/2⌋`, which is Mathlib's `round` on `ℚ`.
* The per-candidate image decodes of one submission complete in an
  arbitrary order; that order is made explicit as a list of the original
  candidate indices in completion order.
* JS object literals keyed by (non-numeric) strings enumerate their keys in
  first-insertion order; association lists updated in place model this.
-/

namespace UVA

/-- A candidate file as the browser delivers it: declared name, byte size and
MIME type, plus the pixel dimensions the external decode capability reports
for its content once the decode completes. -/
structure FileInput where
  name : String
  size : ℕ
  fileType : String
  width : ℕ
  height : ℕ
deriving DecidableEq, Repr

/-- `UploadedImage` (ImageUpload.tsx 6-14): an admitted descriptor.  `id` is
the string `${Date.now()}-${index}`; the opaque `file`/`url` handles are not
modelled. -/
structure UploadedImage where
  id : String
  name : String
  size : ℕ
  width : ℕ
  height : ℕ
deriving DecidableEq, Repr

/-- The descriptor built inside `img.onload` for the candidate at original
index `index`; `stamp index` is the `Date.now()` value observed when that
candidate's decode completes. -/
def mkDescriptor (stamp : ℕ → ℕ) (index : ℕ) (f : FileInput) : UploadedImage :=
  ⟨toString (stamp index) ++ "-" ++ toString index, f.name, f.size, f.width, f.height⟩

/-- `file.type.startsWith('image/')` (ImageUpload.tsx 59), as a prefix test
on the character sequence. -/
def isImageType (f : FileInput) : Bool :=
  "image/".data.isPrefixOf f.fileType.data

/-- The accepted candidates of a submission (ImageUpload.tsx 59-61): keep the
files whose declared type starts with `image/`, then take at most the
remaining capacity. -/
def filesToProcessOf (maxImages : ℕ) (files : List FileInput)
    (images : List UploadedImage) : List FileInput :=
  (files.filter isImageType).take (maxImages - images.length)

/-- The group of newly built descriptors as `processFiles` accumulates them:
each completing decode pushes its descriptor, so the group is arranged by
`order`, the original indices in decode completion order. -/
def newImagesOf (stamp : ℕ → ℕ) (maxImages : ℕ) (files : List FileInput)
    (images : List UploadedImage) (order : List ℕ) : List UploadedImage :=
  order.filterMap
    (fun i => ((filesToProcessOf maxImages files images)[i]?).map (mkDescriptor stamp i))

/-- `processFiles` (ImageUpload.tsx 58-100) with the decode completion order
explicit.  If nothing is accepted it returns early; otherwise, once the last
decode completes, the accumulated group is appended to the current list. -/
def processFiles (stamp : ℕ → ℕ) (maxImages : ℕ) (files : List FileInput)
    (images : List UploadedImage) (order : List ℕ) : List UploadedImage :=
  if (filesToProcessOf maxImages files images).isEmpty then images
  else images ++ newImagesOf stamp maxImages files images order

/-- The accepted candidates turned into descriptors in original submission
order: index `i` paired with the `i`-th accepted candidate.  This is the
ordering the spec asserts for the admitted group. -/
def submissionOrderDescriptors (stamp : ℕ → ℕ) (l : List FileInput) : List UploadedImage :=
  (List.range l.length).filterMap (fun i => (l[i]?).map (mkDescriptor stamp i))

/-- The page-level state (`Index` page): the mirrored image list and the
selected image. -/
structure SysState where
  images : List UploadedImage
  selected : Option UploadedImage
deriving DecidableEq, Repr

/-- `handleImagesChange` (Index page 21-26): store the new list; when it is
non-empty and nothing is selected, select its first element. -/
def handleImagesChange (newImages : List UploadedImage) (st : SysState) : SysState :=
  ⟨newImages,
    if newImages.length > 0 ∧ st.selected = none then newImages.head? else st.selected⟩

/-- `handleImageSelect` (Index page 28-30): unconditionally make the given
image (or `null`, as `removeImage` passes) the selection. -/
def handleImageSelect (img : Option UploadedImage) (st : SysState) : SysState :=
  ⟨st.images, img⟩

/-- Clicking "Clear Batch" (ImageUpload.tsx 174-179): the component resets
its own list and reports `[]` through `onImagesChange`; no selection reset is
performed anywhere on this path. -/
def clearBatch (st : SysState) : SysState :=
  handleImagesChange [] st

/-- `removeImage` (ImageUpload.tsx 102-110) with the parent callbacks: filter
the id out, report the new list, and only when the removed id was the
selected one select `updatedImages[0] || null`. -/
def removeImage (id : String) (st : SysState) : SysState :=
  let updatedImages := st.images.filter (fun img => img.id ≠ id)
  let st1 := handleImagesChange updatedImages st
  if st.selected.map (fun s => s.id) = some id then
    handleImageSelect updatedImages.head? st1
  else st1

/-- A whole submission at page level: `processFiles` followed by
`onImagesChange` with the updated list (ImageUpload.tsx 63 early-returns
before any callback when nothing was accepted). -/
def submitFiles (stamp : ℕ → ℕ) (maxImages : ℕ) (files : List FileInput)
    (order : List ℕ) (st : SysState) : SysState :=
  if (filesToProcessOf maxImages files st.images).isEmpty then st
  else handleImagesChange (processFiles stamp maxImages files st.images order) st

/-- The selection-consistency invariant: the selection is empty or carries
the id of a descriptor currently in the batch (`Option.toList` makes the
"empty or" case split decidable). -/
def selectionConsistent (st : SysState) : Prop :=
  ∀ d ∈ st.selected.toList, ∃ e ∈ st.images, e.id = d.id

instance (st : SysState) : Decidable (selectionConsistent st) := by
  unfold selectionConsistent
  infer_instance

/-- One detection record of the external analysis result
(AnalysisPanel.tsx 32-36). -/
structure Detection where
  class_name : String
  conf : ℚ
  bbox : List ℚ
deriving DecidableEq, Repr

/-- One `analysisResult.images` entry (AnalysisPanel.tsx 24-37); the opaque
URL fields are not modelled. -/
structure PerImage where
  image_name : String
  format : String
  size_mb : ℚ
  domain : String
  labels : List String
  detections : List Detection
deriving DecidableEq, Repr

/-- `analysisResult.summary` (AnalysisPanel.tsx 18-23). -/
structure AnalysisSummary where
  total_images : ℕ
  total_size_mb : ℚ
  average_size_mb : ℚ
  unique_labels : List String
deriving DecidableEq, Repr

/-- The external `AnalysisResult` (AnalysisPanel.tsx 17-38). -/
structure AnalysisResult where
  summary : AnalysisSummary
  images : List PerImage
deriving DecidableEq, Repr

/-- `name.split('.')` on the character sequence: the accumulator holds the
current segment reversed. -/
def splitOnDotAux : List Char → List Char → List (List Char)
  | [], cur => [cur.reverse]
  | c :: rest, cur =>
    if c = '.' then cur.reverse :: splitOnDotAux rest []
    else splitOnDotAux rest (c :: cur)

/-- The extension token of `formatAnalysis`:
`img.name.split('.').pop()?.toUpperCase() || 'UNKNOWN'`.  `split` never
yields an empty array, so `pop` is the substring after the last dot — the
whole name when no dot is present — and the `|| 'UNKNOWN'` fallback fires
exactly when that substring is empty (ASCII uppercasing). -/
def extToken (name : String) : String :=
  let ext := String.mk (((splitOnDotAux name.data []).getLastD []).map Char.toUpper)
  if ext = "" then "UNKNOWN" else ext

/-- One step of the `reduce` that builds the format table:
`acc[ext] = (acc[ext] || 0) + 1`, existing keys updated in place, new keys
appended (first-insertion key order). -/
def bumpFormat (acc : List (String × ℕ)) (k : String) : List (String × ℕ) :=
  if acc.any (fun p => p.1 == k) then
    acc.map (fun p => if p.1 = k then (p.1, p.2 + 1) else p)
  else acc ++ [(k, 1)]

/-- `formatAnalysis` (AnalysisPanel.tsx 65-76): extension counts over the
batch, in first-seen order of each distinct token. -/
def formatAnalysis (images : List UploadedImage) : List (String × ℕ) :=
  images.foldl (fun acc img => bumpFormat acc (extToken img.name)) []

/-- The count stored under key `k` of a format table (0 when absent, first
match otherwise — keys are unique in tables built by `bumpFormat`). -/
def lookupCount : List (String × ℕ) → String → ℕ
  | [], _ => 0
  | p :: rest, k => if p.1 = k then p.2 else lookupCount rest k

/-- `currentImageAnalysis` (AnalysisPanel.tsx 82-84):
`analysisResult?.images.find(img => selectedImage && img.image_name === selectedImage.name)`. -/
def currentImageAnalysis (a : AnalysisResult) (sel : Option UploadedImage) :
    Option PerImage :=
  match sel with
  | none => none
  | some s => a.images.find? (fun img => img.image_name == s.name)

/-- `detections.reduce((avg, det) => avg + det.conf, 0) / detections.length`:
the mean confidence of a detection list.  With zero detections this is
`0/0 = NaN`, modelled as `none`. -/
def meanConf (dets : List Detection) : Option ℚ :=
  if dets.length = 0 then none
  else some ((dets.map (fun d => d.conf)).sum / dets.length)

/-- `analysisData.summary.confidence` (AnalysisPanel.tsx 92-94):
`Math.round(mean * 100)` for the matched entry, `0` when no entry matches.
`Math.round` propagates the `NaN` of a zero-detection entry. -/
def summaryConfidence (a : AnalysisResult) (sel : Option UploadedImage) : Option ℤ :=
  match currentImageAnalysis a sel with
  | some cur => (meanConf cur.detections).map (fun m => round (m * 100))
  | none => some 0

/-- `analysisData.dashboard.detectionCount` (AnalysisPanel.tsx 97). -/
def detectionCount (a : AnalysisResult) : ℕ :=
  a.images.foldl (fun total img => total + img.detections.length) 0

/-- One step of the `reduce` accumulating per-image mean confidences
(AnalysisPanel.tsx 99-100): an image with zero detections contributes
`0/0 = NaN` (`none`), which poisons the running sum. -/
def confStep (acc : Option ℚ) (img : PerImage) : Option ℚ :=
  match acc, meanConf img.detections with
  | some t, some m => some (t + m)
  | _, _ => none

/-- `analysisData.dashboard.averageConfidence` (AnalysisPanel.tsx 98-102):
`Math.round((Σ per-image mean confidence) / images.length * 100)`.  An empty
image list divides by zero; `none` models the non-finite outcomes. -/
def averageConfidence (a : AnalysisResult) : Option ℤ :=
  match a.images.foldl confStep (some 0) with
  | some t =>
      if a.images.length = 0 then none
      else some (round (t / a.images.length * 100))
  | none => none

/-- The `summary` part of the derived view-model. -/
structure SummaryVM where
  description : String
  labels : List String
  confidence : Option ℤ
deriving DecidableEq, Repr

/-- The `dashboard` part of the derived view-model. -/
structure DashboardVM where
  detectionCount : ℕ
  averageConfidence : Option ℤ
  processingTime : String
deriving DecidableEq, Repr

/-- `analysisData.summary.description` (AnalysisPanel.tsx 88-90). -/
def summaryDescription (a : AnalysisResult) (sel : Option UploadedImage) : String :=
  match sel, currentImageAnalysis a sel with
  | some s, some cur =>
      "Analysis of " ++ s.name ++ " detected " ++ toString cur.detections.length ++
        " objects in " ++ cur.domain ++ " domain."
  | _, _ =>
      "Analysis of " ++ toString a.summary.total_images ++ " images with " ++
        toString a.summary.unique_labels.length ++ " unique labels detected."

/-- `analysisData` (AnalysisPanel.tsx 86-116): the summary/dashboard
view-model, with fixed placeholders when no analysis result is present. -/
def analysisData (a : Option AnalysisResult) (sel : Option UploadedImage) :
    SummaryVM × DashboardVM :=
  match a with
  | some res =>
      (⟨summaryDescription res sel, res.summary.unique_labels, summaryConfidence res sel⟩,
       ⟨detectionCount res, averageConfidence res, "2.4s"⟩)
  | none =>
      (⟨"Upload and analyze images to see results here.", [], some 0⟩,
       ⟨0, some 0, "0s"⟩)

/-- One entry of the detection-distribution chart data. -/
structure DetEntry where
  name : String
  count : ℕ
  confidence : ℤ
deriving DecidableEq, Repr

/-- `name.charAt(0).toUpperCase() + name.slice(1)` (ASCII labels). -/
def capFirst (s : String) : String :=
  match s.data with
  | [] => ""
  | c :: cs => String.mk (c.toUpper :: cs)

/-- One step of the grouping `reduce` (AnalysisPanel.tsx 121-131): per
`class_name` a running count and total confidence, keys in first-insertion
order. -/
def bumpDet (acc : List (String × ℕ × ℚ)) (k : String) (c : ℚ) :
    List (String × ℕ × ℚ) :=
  if acc.any (fun p => p.1 == k) then
    acc.map (fun p => if p.1 = k then (p.1, p.2.1 + 1, p.2.2 + c) else p)
  else acc ++ [(k, 1, c)]

/-- The grouping over all detections of all images (AnalysisPanel.tsx
121-131). -/
def groupDetections (imgs : List PerImage) : List (String × ℕ × ℚ) :=
  imgs.foldl
    (fun acc img =>
      img.detections.foldl (fun a2 det => bumpDet a2 det.class_name det.conf) acc)
    []

/-- The comparison of `.sort((a, b) => b.count - a.count)`: count descending.
JS `Array.prototype.sort` is stable; a stable sort by a total preorder has a
unique result, realised here by insertion sort. -/
def countGE (x y : DetEntry) : Prop := y.count ≤ x.count

instance : DecidableRel countGE :=
  fun x y => inferInstanceAs (Decidable (y.count ≤ x.count))

instance : IsTotal DetEntry countGE :=
  ⟨fun a b => (Nat.le_total a.count b.count).symm⟩

instance : IsTrans DetEntry countGE :=
  ⟨fun _ _ _ hab hbc => le_trans hbc hab⟩

/-- The chart entry built from one group (AnalysisPanel.tsx 132-136): first
letter of the label uppercased, count, mean confidence as a rounded
percentage. -/
def detEntryOf (p : String × ℕ × ℚ) : DetEntry :=
  ⟨capFirst p.1, p.2.1, round (p.2.2 / (p.2.1 : ℚ) * 100)⟩

/-- `detectionData` (AnalysisPanel.tsx 119-137): group, map to chart entries,
then stable-sort by count descending. -/
def detectionData (a : Option AnalysisResult) : List DetEntry :=
  match a with
  | none => []
  | some res =>
      List.insertionSort countGE ((groupDetections res.images).map detEntryOf)

/-- The (count, total confidence) pair stored under key `k` of a grouping
table (0 when absent). -/
def lookupPair : List (String × ℕ × ℚ) → String → ℕ × ℚ
  | [], _ => (0, 0)
  | p :: rest, k => if p.1 = k then p.2 else lookupPair rest k

/-- All detections of all images, flattened in traversal order. -/
def allDetections (imgs : List PerImage) : List Detection :=
  (imgs.map (fun img => img.detections)).flatten

/-- The per-image mean detection confidence (only meaningful for an image
with at least one detection). -/
def perImageMean (img : PerImage) : ℚ :=
  (img.detections.map (fun d => d.conf)).sum / img.detections.length

/-- Sample descriptors, candidate files and analysis records for concrete
evaluations. -/
def imgA : UploadedImage := ⟨"7-0", "a.jpg", 1, 2, 3⟩

def imgB : UploadedImage := ⟨"7-1", "b.png", 2, 4, 5⟩

def imgNoDot : UploadedImage := ⟨"7-2", "readme", 3, 1, 1⟩

def imgX : UploadedImage := ⟨"7-0", "x.jpg", 1, 2, 3⟩

def fileA : FileInput := ⟨"a.jpg", 1, "image/jpeg", 2, 3⟩

def fileB : FileInput := ⟨"b.png", 2, "image/png", 4, 5⟩

def detOf (k : String) (c : ℚ) : Detection := ⟨k, c, []⟩

def perImageOf (n : String) (dets : List Detection) : PerImage :=
  ⟨n, "JPG", 1, "general", [], dets⟩

def sampleSummary : AnalysisSummary := ⟨1, 1, 1, []⟩

/-- C9: aggregation with an absent analysis result never fails: for every
selection state the view-model carries the fixed placeholder description,
zero/empty summary and dashboard fields, and an empty detection
distribution. -/
theorem C9_absent_analysis (sel : Option UploadedImage) :
    analysisData none sel =
      (⟨"Upload and analyze images to see results here.", [], some 0⟩,
       ⟨0, some 0, "0s"⟩) ∧
    detectionData none = [] :=
  ⟨rfl, rfl⟩

/-- C4 (amended): the select operation never fails and performs no
membership check: it leaves the descriptor list unchanged and
unconditionally installs the given image as the selection, even one whose id
matches no descriptor in the batch; no `UnknownImage` error exists. -/
theorem C4_select_unconditional (img : Option UploadedImage) (st : SysState) :
    (handleImageSelect img st).images = st.images ∧
    (handleImageSelect img st).selected = img :=
  ⟨rfl, rfl⟩

/-- C4 counterexample: selecting an image absent from the batch neither
fails nor leaves the state unchanged — the selection is simply set to the
unknown image, breaking selection consistency. -/
theorem C4_counterexample :
    (handleImageSelect (some imgB) ⟨[imgA], some imgA⟩).selected = some imgB ∧
    handleImageSelect (some imgB) ⟨[imgA], some imgA⟩ ≠ (⟨[imgA], some imgA⟩ : SysState) ∧
    ¬ selectionConsistent (handleImageSelect (some imgB) ⟨[imgA], some imgA⟩) := by
  decide

/-- Looking up a key other than `k` ignores an appended `(k, v)` entry. -/
theorem lookupCount_append_ne (acc : List (String × ℕ)) (k k' : String) (v : ℕ)
    (h : k' ≠ k) :
    lookupCount (acc ++ [(k, v)]) k' = lookupCount acc k' := by
  induction acc with
  | nil => simp [lookupCount, Ne.symm h]
  | cons p rest ih =>
      by_cases hp : p.1 = k'
      · simp [lookupCount, hp]
      · simp [lookupCount, hp, ih]

/-- A key absent from the table looks up to 0. -/
theorem lookupCount_eq_zero_of_not_mem (acc : List (String × ℕ)) (k : String)
    (h : acc.any (fun p => p.1 == k) = false) :
    lookupCount acc k = 0 := by
  induction acc with
  | nil => rfl
  | cons p rest ih =>
      simp only [List.any_cons, Bool.or_eq_false_iff, beq_eq_false_iff_ne] at h
      simp [lookupCount, h.1, ih h.2]

/-- Appending a fresh `(k, v)` entry makes `k` look up to `v`. -/
theorem lookupCount_append_self (acc : List (String × ℕ)) (k : String) (v : ℕ)
    (h : acc.any (fun p => p.1 == k) = false) :
    lookupCount (acc ++ [(k, v)]) k = v := by
  induction acc with
  | nil => simp [lookupCount]
  | cons p rest ih =>
      simp only [List.any_cons, Bool.or_eq_false_iff, beq_eq_false_iff_ne] at h
      simp [lookupCount, h.1, ih h.2]

/-- The in-place increment of key `k` does not change other lookups. -/
theorem lookupCount_map_inc_ne (acc : List (String × ℕ)) (k k' : String)
    (h : k' ≠ k) :
    lookupCount (acc.map (fun p => if p.1 = k then (p.1, p.2 + 1) else p)) k' =
      lookupCount acc k' := by
  induction acc with
  | nil => rfl
  | cons p rest ih =>
      by_cases hp : p.1 = k
      · have hpk' : ¬ p.1 = k' := by rw [hp]; exact Ne.symm h
        simp [lookupCount, hp, hpk', Ne.symm h, ih]
      · by_cases hp' : p.1 = k'
        · simp [lookupCount, hp, hp', h, ih]
        · simp [lookupCount, hp, hp', ih]

/-- The in-place increment of a present key `k` adds 1 to its lookup. -/
theorem lookupCount_map_inc_self (acc : List (String × ℕ)) (k : String)
    (h : acc.any (fun p => p.1 == k) = true) :
    lookupCount (acc.map (fun p => if p.1 = k then (p.1, p.2 + 1) else p)) k =
      lookupCount acc k + 1 := by
  induction acc with
  | nil => simp at h
  | cons p rest ih =>
      by_cases hp : p.1 = k
      · simp [lookupCount, hp]
      · simp only [List.any_cons, Bool.or_eq_true] at h
        rcases h with h | h
        · exact absurd (by simpa using h) hp
        · simp [lookupCount, hp, ih h]

/-- One `bumpFormat` step adds exactly 1 to the bumped key's count and leaves
every other count unchanged. -/
theorem lookupCount_bumpFormat (acc : List (String × ℕ)) (k k' : String) :
    lookupCount (bumpFormat acc k) k' =
      lookupCount acc k' + if k' = k then 1 else 0 := by
  unfold bumpFormat
  by_cases hmem : acc.any (fun p => p.1 == k) = true
  · by_cases hk : k' = k
    · subst hk
      simp [hmem, lookupCount_map_inc_self acc k' hmem]
    · simp [hmem, hk, lookupCount_map_inc_ne acc k k' hk]
  · rw [Bool.not_eq_true] at hmem
    by_cases hk : k' = k
    · subst hk
      simp [hmem, lookupCount_append_self acc k' 1 hmem,
        lookupCount_eq_zero_of_not_mem acc k' hmem]
    · simp [hmem, hk, lookupCount_append_ne acc k k' 1 hk]

/-- Folding `bumpFormat` over a key list adds each key's multiplicity. -/
theorem lookupCount_foldl_bumpFormat (l : List String) :
    ∀ (acc : List (String × ℕ)) (k : String),
      lookupCount (l.foldl bumpFormat acc) k = lookupCount acc k + l.count k := by
  induction l with
  | nil => simp
  | cons x l ih =>
      intro acc k
      rw [List.foldl_cons, ih, lookupCount_bumpFormat, List.count_cons]
      by_cases hk : k = x
      · simp [hk]
        omega
      · have hk' : ¬ x = k := fun hh => hk hh.symm
        simp [hk, hk']

/-- `bumpFormat` keeps the key list duplicate-free. -/
theorem nodup_keys_bumpFormat (acc : List (String × ℕ)) (k : String)
    (h : (acc.map Prod.fst).Nodup) :
    ((bumpFormat acc k).map Prod.fst).Nodup := by
  unfold bumpFormat
  by_cases hmem : acc.any (fun p => p.1 == k) = true
  · have : (acc.map (fun p => if p.1 = k then (p.1, p.2 + 1) else p)).map Prod.fst =
        acc.map Prod.fst := by
      rw [List.map_map]
      exact List.map_congr_left (fun p _ => by by_cases hp : p.1 = k <;> simp [hp])
    simp [hmem, this, h]
  · rw [Bool.not_eq_true] at hmem
    have hk : k ∉ acc.map Prod.fst := by
      intro hcontra
      rcases List.mem_map.mp hcontra with ⟨p, hp, hpk⟩
      have : acc.any (fun p => p.1 == k) = true :=
        List.any_eq_true.mpr ⟨p, hp, by simp [hpk]⟩
      simp [this] at hmem
    simp [hmem, List.nodup_append, h, hk]

/-- With duplicate-free keys, an in-place increment of a present key adds
exactly 1 to the total count. -/
theorem sum_map_inc (acc : List (String × ℕ)) (k : String)
    (hnd : (acc.map Prod.fst).Nodup)
    (h : acc.any (fun p => p.1 == k) = true) :
    (((acc.map (fun p => if p.1 = k then (p.1, p.2 + 1) else p)).map Prod.snd).sum) =
      ((acc.map Prod.snd).sum) + 1 := by
  induction acc with
  | nil => simp at h
  | cons p rest ih =>
      simp only [List.map_cons, List.nodup_cons] at hnd
      by_cases hp : p.1 = k
      · have hrest : rest.map (fun q => if q.1 = k then (q.1, q.2 + 1) else q) = rest := by
          conv_rhs => rw [← List.map_id rest]
          apply List.map_congr_left
          intro q hq
          have hq1 : q.1 ≠ k := by
            intro hqk
            exact hnd.1 (hp ▸ hqk ▸ List.mem_map_of_mem Prod.fst hq)
          simp [hq1]
        simp only [List.map_cons, List.sum_cons, hrest]
        simp [hp]
        omega
      · simp only [List.any_cons, Bool.or_eq_true] at h
        rcases h with h | h
        · exact absurd (by simpa using h) hp
        · simp only [List.map_cons, List.sum_cons]
          rw [ih hnd.2 h]
          simp [hp]
          omega

/-- One `bumpFormat` step adds exactly 1 to the total of all counts. -/
theorem sum_bumpFormat (acc : List (String × ℕ)) (k : String)
    (hnd : (acc.map Prod.fst).Nodup) :
    (((bumpFormat acc k).map Prod.snd).sum) = ((acc.map Prod.snd).sum) + 1 := by
  unfold bumpFormat
  by_cases hmem : acc.any (fun p => p.1 == k) = true
  · rw [if_pos hmem]
    exact sum_map_inc acc k hnd hmem
  · rw [Bool.not_eq_true] at hmem
    rw [if_neg (by simp [hmem])]
    simp

/-- Folding `bumpFormat` preserves duplicate-free keys and adds the folded
list's length to the total of all counts. -/
theorem foldl_bumpFormat_nodup_sum (l : List String) :
    ∀ (acc : List (String × ℕ)), (acc.map Prod.fst).Nodup →
      ((l.foldl bumpFormat acc).map Prod.fst).Nodup ∧
      (((l.foldl bumpFormat acc).map Prod.snd).sum) =
        ((acc.map Prod.snd).sum) + l.length := by
  induction l with
  | nil => intro acc h; simpa using h
  | cons x l ih =>
      intro acc h
      rw [List.foldl_cons]
      rcases ih (bumpFormat acc x) (nodup_keys_bumpFormat acc x h) with ⟨h1, h2⟩
      refine ⟨h1, ?_⟩
      rw [h2, sum_bumpFormat acc x h]
      simp [Nat.add_assoc, Nat.add_comm 1 l.length]

/-- C5 (amended): `formatDistribution` maps each descriptor to the uppercased
substring after the last '.' in its `displayName` — the whole uppercased name
when no '.' is present — and to "UNKNOWN" exactly when that substring is
empty; each table entry counts its token's occurrences, so the counts sum to
the number of descriptors. -/
theorem C5_format_distribution (images : List UploadedImage) (k : String) :
    lookupCount (formatAnalysis images) k =
      (images.map (fun img => extToken img.name)).count k ∧
    (((formatAnalysis images).map Prod.snd).sum) = images.length := by
  constructor
  · rw [formatAnalysis, ← List.foldl_map, lookupCount_foldl_bumpFormat]
    simp [lookupCount]
  · rw [formatAnalysis, ← List.foldl_map]
    have := (foldl_bumpFormat_nodup_sum (images.map (fun img => extToken img.name)) []
      (by simp)).2
    simpa using this

/-- C5 counterexample: a `displayName` with no '.' is mapped to its own
uppercasing, not to "UNKNOWN" — with the single descriptor named "readme"
the table is `[("README", 1)]` and the "UNKNOWN" bucket is empty. -/
theorem C5_counterexample :
    extToken "readme" = "README" ∧ extToken "readme" ≠ "UNKNOWN" ∧
    formatAnalysis [imgNoDot] = [("README", 1)] ∧
    lookupCount (formatAnalysis [imgNoDot]) "UNKNOWN" = 0 := by
  decide

/-- C6 (amended): when the selected descriptor's name matches a `perImage`
entry, `summary.confidence` is the entry's mean detection confidence as a
rounded percentage when the entry has at least one detection; with zero
detections the code divides zero by zero, so the value is `NaN` (`none`)
rather than 0. -/
theorem C6_selected_confidence (a : AnalysisResult) (s : UploadedImage)
    (cur : PerImage) (hfind : currentImageAnalysis a (some s) = some cur) :
    (cur.detections ≠ [] →
      summaryConfidence a (some s) =
        some (round ((cur.detections.map (fun d => d.conf)).sum /
          (cur.detections.length : ℚ) * 100))) ∧
    (cur.detections = [] → summaryConfidence a (some s) = none) := by
  constructor
  · intro hne
    have hlen : ¬ cur.detections.length = 0 :=
      fun h0 => hne (List.length_eq_zero.mp h0)
    simp [summaryConfidence, hfind, meanConf, hlen]
  · intro he
    simp [summaryConfidence, hfind, meanConf, he]

/-- C6 witness at the spec's scenario: `x.jpg` with confidences 0.8 and 0.6
yields a summary confidence of 70. -/
theorem C6_selected_confidence_witness :
    summaryConfidence
      ⟨sampleSummary, [perImageOf "x.jpg" [detOf "a" (4/5), detOf "b" (3/5)]]⟩
      (some imgX) = some 70 := by
  have h := (C6_selected_confidence
    ⟨sampleSummary, [perImageOf "x.jpg" [detOf "a" (4/5), detOf "b" (3/5)]]⟩ imgX
    (perImageOf "x.jpg" [detOf "a" (4/5), detOf "b" (3/5)]) rfl).1
    (by simp [perImageOf])
  rw [h]
  norm_num [perImageOf, detOf, round_eq]

/-- C6 counterexample: a matched entry with zero detections makes the
confidence `0/0 = NaN` (`none`), not the 0 the claim asserts. -/
theorem C6_counterexample :
    summaryConfidence ⟨sampleSummary, [perImageOf "x.jpg" []]⟩ (some imgX) = none ∧
    summaryConfidence ⟨sampleSummary, [perImageOf "x.jpg" []]⟩ (some imgX) ≠ some 0 := by
  decide

/-- Once the running sum is `NaN`, it stays `NaN`. -/
theorem foldl_confStep_none (l : List PerImage) : l.foldl confStep none = none := by
  induction l with
  | nil => rfl
  | cons img l ih => simpa [confStep] using ih

/-- When every image has a detection, the fold accumulates the per-image
means. -/
theorem foldl_confStep_some (l : List PerImage) :
    ∀ t : ℚ, (∀ img ∈ l, img.detections ≠ []) →
      l.foldl confStep (some t) = some (t + (l.map perImageMean).sum) := by
  induction l with
  | nil => intro t _; simp
  | cons img l ih =>
      intro t h
      have hne := h img (List.mem_cons_self img l)
      have hmean : meanConf img.detections = some (perImageMean img) := by
        unfold meanConf perImageMean
        rw [if_neg (fun h0 => hne (List.length_eq_zero.mp h0))]
      rw [List.foldl_cons]
      have hstep : confStep (some t) img = some (t + perImageMean img) := by
        unfold confStep
        rw [hmean]
      rw [hstep, ih (t + perImageMean img)
        (fun i hi => h i (List.mem_cons_of_mem img hi))]
      simp [add_assoc]

/-- Any image with zero detections poisons the whole fold. -/
theorem foldl_confStep_bad (l : List PerImage) :
    ∀ acc, (∃ img ∈ l, img.detections = []) → l.foldl confStep acc = none := by
  induction l with
  | nil => intro acc h; simp at h
  | cons img l ih =>
      intro acc h
      rcases h with ⟨bad, hmem, hbad⟩
      rcases List.mem_cons.mp hmem with rfl | hmem'
      · rw [List.foldl_cons]
        have hstep : confStep acc bad = none := by
          cases acc <;> simp [confStep, meanConf, hbad]
        rw [hstep, foldl_confStep_none]
      · rw [List.foldl_cons]
        exact ih _ ⟨bad, hmem', hbad⟩

/-- C7 (amended): `dashboard.averageConfidence` is the rounded-percentage
mean, over ALL `perImage` entries, of each entry's own mean confidence — a
two-level average — provided every entry has at least one detection.  An
entry with zero detections is not excluded: it turns the whole figure into
`NaN` (`none`), and an empty entry list yields `NaN` as well, not 0. -/
theorem C7_average_confidence (a : AnalysisResult) :
    ((∀ img ∈ a.images, img.detections ≠ []) → a.images ≠ [] →
      averageConfidence a =
        some (round ((a.images.map perImageMean).sum / (a.images.length : ℚ) * 100))) ∧
    ((∃ img ∈ a.images, img.detections = []) → averageConfidence a = none) ∧
    (a.images = [] → averageConfidence a = none) := by
  refine ⟨?_, ?_, ?_⟩
  · intro hall hne
    have hlen : ¬ a.images.length = 0 :=
      fun h0 => hne (List.length_eq_zero.mp h0)
    unfold averageConfidence
    rw [foldl_confStep_some a.images 0 hall]
    simp [hlen]
  · intro hbad
    unfold averageConfidence
    rw [foldl_confStep_bad a.images (some 0) hbad]
  · intro hemp
    simp [averageConfidence, hemp]

/-- C7 witness at the spec's scenario: ten detections of confidence 1.0 in
one image and a single detection of confidence 0.0 in another average to 50
(per-image means 100 and 0), not the flat average 91. -/
theorem C7_average_confidence_witness :
    averageConfidence ⟨sampleSummary,
      [perImageOf "a" [detOf "p" 1, detOf "p" 1, detOf "p" 1, detOf "p" 1, detOf "p" 1,
        detOf "p" 1, detOf "p" 1, detOf "p" 1, detOf "p" 1, detOf "p" 1],
       perImageOf "b" [detOf "q" 0]]⟩ = some 50 := by
  have h := (C7_average_confidence ⟨sampleSummary,
    [perImageOf "a" [detOf "p" 1, detOf "p" 1, detOf "p" 1, detOf "p" 1, detOf "p" 1,
      detOf "p" 1, detOf "p" 1, detOf "p" 1, detOf "p" 1, detOf "p" 1],
     perImageOf "b" [detOf "q" 0]]⟩).1
    (by intro img hmem; fin_cases hmem <;> simp [perImageOf])
    (by simp)
  rw [h]
  norm_num [perImageMean, perImageOf, detOf, round_eq]

/-- C7 counterexample: with one entry holding a single confidence-1.0
detection and another entry holding no detections, the code yields `NaN`
(`none`) — not 100, which excluding the empty entry would give. -/
theorem C7_counterexample :
    averageConfidence
      ⟨sampleSummary, [perImageOf "a" [detOf "p" 1], perImageOf "b" []]⟩ = none ∧
    averageConfidence
      ⟨sampleSummary, [perImageOf "a" [detOf "p" 1], perImageOf "b" []]⟩ ≠ some 100 := by
  have h : averageConfidence
      ⟨sampleSummary, [perImageOf "a" [detOf "p" 1], perImageOf "b" []]⟩ = none := by
    simp [averageConfidence, confStep, meanConf, perImageOf, detOf]
  exact ⟨h, by simp [h]⟩

/-- `processFiles` always returns the prior descriptors followed by the
newly built group (the early return happens exactly when the group is
empty). -/
theorem processFiles_eq_append (stamp : ℕ → ℕ) (maxImages : ℕ)
    (files : List FileInput) (images : List UploadedImage) (order : List ℕ) :
    processFiles stamp maxImages files images order =
      images ++ newImagesOf stamp maxImages files images order := by
  unfold processFiles
  by_cases h : (filesToProcessOf maxImages files images).isEmpty = true
  · have hnil : filesToProcessOf maxImages files images = [] := by
      simpa [List.isEmpty_iff] using h
    rw [if_pos h]
    simp [newImagesOf, hnil]
  · rw [if_neg h]

/-- When every index in the completion order is in range, each decode
contributes exactly one descriptor. -/
theorem newImagesOf_length (stamp : ℕ → ℕ) (maxImages : ℕ)
    (files : List FileInput) (images : List UploadedImage) (order : List ℕ)
    (h : ∀ i ∈ order, i < (filesToProcessOf maxImages files images).length) :
    (newImagesOf stamp maxImages files images order).length = order.length := by
  unfold newImagesOf
  induction order with
  | nil => rfl
  | cons i rest ih =>
      have hi := h i (List.mem_cons_self i rest)
      rw [List.filterMap_cons, List.getElem?_eq_getElem hi]
      simp only [Option.map_some', List.length_cons]
      rw [ih (fun j hj => h j (List.mem_cons_of_mem i hj))]

/-- Whatever the completion order, the admitted group is a permutation of
the submission-order group. -/
theorem newImagesOf_perm (stamp : ℕ → ℕ) (maxImages : ℕ)
    (files : List FileInput) (images : List UploadedImage) (order : List ℕ)
    (h : order.Perm (List.range (filesToProcessOf maxImages files images).length)) :
    (newImagesOf stamp maxImages files images order).Perm
      (submissionOrderDescriptors stamp (filesToProcessOf maxImages files images)) := by
  unfold newImagesOf submissionOrderDescriptors
  exact h.filterMap _

/-- Building descriptors by original index preserves the candidates' name
sequence, for any index-dependent constructor that keeps the name. -/
theorem filterMap_range_map_name (l : List FileInput) :
    ∀ g : ℕ → FileInput → UploadedImage, (∀ i f, (g i f).name = f.name) →
      (((List.range l.length).filterMap (fun i => (l[i]?).map (g i))).map
        (fun d => d.name)) = l.map (fun f => f.name) := by
  induction l with
  | nil => simp
  | cons f l ih =>
      intro g hg
      rw [List.length_cons, List.range_succ_eq_map, List.filterMap_cons,
        List.filterMap_map]
      simp only [List.getElem?_cons_zero, Option.map_some', Function.comp_def,
        List.getElem?_cons_succ, List.map_cons, hg 0 f]
      rw [ih (fun i => g (i + 1)) (fun i f' => hg (i + 1) f')]

/-- The submission-order group lists the accepted candidates' names in their
original order. -/
theorem submissionOrderDescriptors_names (stamp : ℕ → ℕ) (l : List FileInput) :
    (submissionOrderDescriptors stamp l).map (fun d => d.name) =
      l.map (fun f => f.name) :=
  filterMap_range_map_name l _ (fun _ _ => rfl)

/-- C1 (amended): the newly admitted descriptors are appended after the
prior descriptors arranged in decode completion order — a permutation of the
submission-order group; the admitted list is in original submission order
exactly when the decodes complete in submission order, and the
submission-order group itself carries the accepted candidates' names in
their original sequence. -/
theorem C1_submission_order (stamp : ℕ → ℕ) (maxImages : ℕ)
    (files : List FileInput) (images : List UploadedImage) (order : List ℕ)
    (h : order.Perm (List.range (filesToProcessOf maxImages files images).length)) :
    processFiles stamp maxImages files images order =
      images ++ newImagesOf stamp maxImages files images order ∧
    (newImagesOf stamp maxImages files images order).Perm
      (submissionOrderDescriptors stamp (filesToProcessOf maxImages files images)) ∧
    (order = List.range (filesToProcessOf maxImages files images).length →
      processFiles stamp maxImages files images order =
        images ++ submissionOrderDescriptors stamp
          (filesToProcessOf maxImages files images)) ∧
    (submissionOrderDescriptors stamp (filesToProcessOf maxImages files images)).map
        (fun d => d.name) =
      (filesToProcessOf maxImages files images).map (fun f => f.name) := by
  refine ⟨processFiles_eq_append .., newImagesOf_perm _ _ _ _ _ h, ?_,
    submissionOrderDescriptors_names ..⟩
  intro horder
  subst horder
  rw [processFiles_eq_append]
  rfl

/-- C1 witness: the group admitted under the reversed completion order is a
permutation of the submission-order group. -/
theorem C1_submission_order_witness :
    (newImagesOf (fun _ => 7) 10 [fileA, fileB] [] [1, 0]).Perm
      (submissionOrderDescriptors (fun _ => 7) (filesToProcessOf 10 [fileA, fileB] [])) :=
  (C1_submission_order (fun _ => 7) 10 [fileA, fileB] [] [1, 0] (by decide)).2.1

/-- C1 counterexample: two candidates whose decodes complete in reverse
order are appended in completion order `[b.png, a.jpg]`, not in submission
order. -/
theorem C1_counterexample :
    processFiles (fun _ => 7) 10 [fileA, fileB] [] [1, 0] =
      [mkDescriptor (fun _ => 7) 1 fileB, mkDescriptor (fun _ => 7) 0 fileA] ∧
    processFiles (fun _ => 7) 10 [fileA, fileB] [] [1, 0] ≠
      [] ++ submissionOrderDescriptors (fun _ => 7)
        (filesToProcessOf 10 [fileA, fileB] []) := by
  decide

/-- C2: after filtering non-image candidates, a submission grows the batch
by `min(imageCandidates, maxImages - previousLength)` descriptors, the
excess being dropped without error, and a batch within capacity stays within
capacity. -/
theorem C2_capacity (stamp : ℕ → ℕ) (maxImages : ℕ)
    (files : List FileInput) (images : List UploadedImage) (order : List ℕ)
    (h : order.Perm (List.range (filesToProcessOf maxImages files images).length)) :
    (processFiles stamp maxImages files images order).length =
      images.length +
        min (files.filter isImageType).length (maxImages - images.length) ∧
    (images.length ≤ maxImages →
      (processFiles stamp maxImages files images order).length ≤ maxImages) := by
  have hmem : ∀ i ∈ order, i < (filesToProcessOf maxImages files images).length := by
    intro i hi
    simpa [List.mem_range] using h.mem_iff.mp hi
  have hlen1 := newImagesOf_length stamp maxImages files images order hmem
  have hlen2 : order.length = (filesToProcessOf maxImages files images).length := by
    simpa using h.length_eq
  have hlen3 : (filesToProcessOf maxImages files images).length =
      min (files.filter isImageType).length (maxImages - images.length) := by
    unfold filesToProcessOf
    simp [List.length_take, Nat.min_comm]
  have hmain : (processFiles stamp maxImages files images order).length =
      images.length +
        min (files.filter isImageType).length (maxImages - images.length) := by
    rw [processFiles_eq_append, List.length_append, hlen1, hlen2, hlen3]
  refine ⟨hmain, fun hle => ?_⟩
  rw [hmain]
  omega

/-- C2 witness at the spec's scenario: submitting 12 image candidates to a
batch of 2 with capacity 10 admits exactly 8 — the batch ends at 10. -/
theorem C2_capacity_witness :
    (processFiles (fun _ => 7) 10 (List.replicate 12 fileA) [imgA, imgB]
      (List.range 8)).length = 10 :=
  ((C2_capacity (fun _ => 7) 10 (List.replicate 12 fileA) [imgA, imgB]
    (List.range 8) (by decide)).1).trans (by decide)

/-- Unfolding `removeImage`: when the removed id was the selected one the
final selection is the new first element (or none); otherwise the state is
just `handleImagesChange` of the filtered list. -/
theorem removeImage_def (id : String) (st : SysState) :
    removeImage id st =
      if st.selected.map (fun s => s.id) = some id then
        ⟨st.images.filter (fun img => img.id ≠ id),
         (st.images.filter (fun img => img.id ≠ id)).head?⟩
      else handleImagesChange (st.images.filter (fun img => img.id ≠ id)) st := by
  unfold removeImage handleImageSelect
  by_cases hc : st.selected.map (fun s => s.id) = some id
  · rw [if_pos hc, if_pos hc]
    simp [handleImagesChange]
  · rw [if_neg hc, if_neg hc]

/-- A state whose selection is the first element of its own list is
consistent. -/
theorem selectionConsistent_head (L : List UploadedImage) :
    selectionConsistent ⟨L, L.head?⟩ := by
  intro d hd
  have hh : L.head? = some d := by
    simpa [Option.mem_toList, Option.mem_def] using hd
  exact ⟨d, List.mem_of_mem_head? hh, rfl⟩

/-- `handleImagesChange` keeps the selection consistent whenever the new
list contains the old images. -/
theorem selectionConsistent_handleImagesChange (st : SysState)
    (L : List UploadedImage) (h : selectionConsistent st)
    (hsub : ∀ e ∈ st.images, e ∈ L) :
    selectionConsistent (handleImagesChange L st) := by
  unfold handleImagesChange
  by_cases hc : L.length > 0 ∧ st.selected = none
  · rw [if_pos hc]
    exact selectionConsistent_head L
  · rw [if_neg hc]
    intro d hd
    rcases h d hd with ⟨e, he, heid⟩
    exact ⟨e, hsub e he, heid⟩

/-- Removing a present id under duplicate-free ids shrinks the list by
exactly one element. -/
theorem length_filter_ne_of_mem (l : List UploadedImage) (id : String)
    (hmem : ∃ e ∈ l, e.id = id) (hnd : (l.map (fun i => i.id)).Nodup) :
    (l.filter (fun img => img.id ≠ id)).length + 1 = l.length := by
  induction l with
  | nil => simp at hmem
  | cons x l ih =>
      simp only [List.map_cons, List.nodup_cons] at hnd
      rcases hmem with ⟨e, hmem, heid⟩
      rcases List.mem_cons.mp hmem with rfl | hmem'
      · have hrest : l.filter (fun img => img.id ≠ id) = l := by
          rw [List.filter_eq_self]
          intro a ha
          simp only [ne_eq, decide_eq_true_eq]
          intro haid
          exact hnd.1 (heid ▸ haid ▸ List.mem_map_of_mem _ ha)
        have hcond : ¬ (e.id ≠ id) := by simp [heid]
        rw [List.filter_cons, hrest]
        simp [hcond]
      · have hxid : ¬ x.id = id := by
          intro hx
          exact hnd.1 (by rw [hx, ← heid]; exact List.mem_map_of_mem _ hmem')
        rw [List.filter_cons]
        simp only [ne_eq, hxid, not_false_eq_true, decide_True, if_true,
          List.length_cons]
        have hih := ih ⟨e, hmem', heid⟩ hnd.2
        simp only [ne_eq] at hih
        omega

/-- C3 (amended): submit, remove and select (as issued by the UI, which only
offers images of the batch) preserve selection consistency, but clear only
empties the descriptor list and leaves `selectedId` untouched — so it
preserves the invariant only when no selection was set. -/
theorem C3_selection_invariant (st : SysState) (h : selectionConsistent st) :
    (∀ (stamp : ℕ → ℕ) (maxImages : ℕ) (files : List FileInput) (order : List ℕ),
      selectionConsistent (submitFiles stamp maxImages files order st)) ∧
    (∀ id, selectionConsistent (removeImage id st)) ∧
    (∀ img ∈ st.images, selectionConsistent (handleImageSelect (some img) st)) ∧
    ((clearBatch st).images = [] ∧ (clearBatch st).selected = st.selected) ∧
    (st.selected = none → selectionConsistent (clearBatch st)) := by
  refine ⟨?_, ?_, ?_, ?_, ?_⟩
  · intro stamp maxImages files order
    unfold submitFiles
    by_cases hc : (filesToProcessOf maxImages files st.images).isEmpty = true
    · rw [if_pos hc]
      exact h
    · rw [if_neg hc]
      apply selectionConsistent_handleImagesChange st _ h
      intro e he
      rw [processFiles_eq_append]
      exact List.mem_append_left _ he
  · intro id
    rw [removeImage_def]
    by_cases hc : st.selected.map (fun s => s.id) = some id
    · rw [if_pos hc]
      exact selectionConsistent_head _
    · rw [if_neg hc]
      unfold handleImagesChange
      by_cases hc2 : (st.images.filter (fun img => img.id ≠ id)).length > 0 ∧
          st.selected = none
      · rw [if_pos hc2]
        exact selectionConsistent_head _
      · rw [if_neg hc2]
        intro d hd
        rcases h d hd with ⟨e, he, heid⟩
        have hdsel : st.selected = some d := by
          simpa [Option.mem_toList, Option.mem_def] using hd
        have hdid : ¬ d.id = id := by
          intro hdid
          exact hc (by rw [hdsel, Option.map_some', hdid])
        refine ⟨e, List.mem_filter.mpr ⟨he, ?_⟩, heid⟩
        simp [heid, hdid]
  · intro img himg d hd
    have : d = img := by
      simpa [handleImageSelect, Option.mem_toList, Option.mem_def] using hd
    exact ⟨img, himg, by rw [this]⟩
  · constructor
    · rfl
    · simp [clearBatch, handleImagesChange]
  · intro hnone d hd
    simp [clearBatch, handleImagesChange, hnone, Option.mem_toList] at hd

/-- C3 witness: removing an absent id from a consistent one-image batch
keeps the selection consistent. -/
theorem C3_selection_invariant_witness :
    selectionConsistent (removeImage "zz" ⟨[imgA], some imgA⟩) :=
  (C3_selection_invariant ⟨[imgA], some imgA⟩ (by decide)).2.1 "zz"

/-- C3 counterexample: clearing a batch with a selection empties the
descriptors but leaves `selectedId` pointing at the removed descriptor,
violating the invariant. -/
theorem C3_counterexample :
    selectionConsistent ⟨[imgA], some imgA⟩ ∧
    (clearBatch ⟨[imgA], some imgA⟩).images = [] ∧
    (clearBatch ⟨[imgA], some imgA⟩).selected = some imgA ∧
    ¬ selectionConsistent (clearBatch ⟨[imgA], some imgA⟩) := by
  decide

/-- C10: removing a descriptor other than the selected one leaves the
selection unchanged; the descriptor list is the filtered list, which under
duplicate-free ids is exactly one element shorter when the id was present. -/
theorem C10_remove_nonselected (st : SysState) (s : UploadedImage) (id : String)
    (hsel : st.selected = some s) (hne : id ≠ s.id) :
    (removeImage id st).selected = some s ∧
    (removeImage id st).images = st.images.filter (fun img => img.id ≠ id) ∧
    ((∃ e ∈ st.images, e.id = id) → (st.images.map (fun i => i.id)).Nodup →
      (removeImage id st).images.length + 1 = st.images.length) := by
  have hc : ¬ st.selected.map (fun x => x.id) = some id := by
    rw [hsel, Option.map_some']
    intro hh
    exact hne (Option.some.inj hh).symm
  rw [removeImage_def, if_neg hc]
  have hsnone : ¬ st.selected = none := by
    rw [hsel]
    exact fun hh => Option.noConfusion hh
  refine ⟨?_, ?_, ?_⟩
  · simp [handleImagesChange, hsnone, hsel]
  · rfl
  · intro hmem hnd
    have := length_filter_ne_of_mem st.images id hmem hnd
    simpa [handleImagesChange] using this

/-- C10 witness: removing `b.png` (id "7-1") while `a.jpg` (id "7-0") is
selected keeps the selection and shrinks the two-image batch to one. -/
theorem C10_remove_nonselected_witness :
    (removeImage "7-1" ⟨[imgA, imgB], some imgA⟩).selected = some imgA ∧
    (removeImage "7-1" ⟨[imgA, imgB], some imgA⟩).images.length + 1 = 2 := by
  have h := C10_remove_nonselected ⟨[imgA, imgB], some imgA⟩ imgA "7-1" rfl (by decide)
  exact ⟨h.1, by simpa using h.2.2 (by decide) (by decide)⟩

/-- Looking up a key other than `k` ignores an appended `(k, v)` group. -/
theorem lookupPair_append_ne (acc : List (String × ℕ × ℚ)) (k k' : String)
    (v : ℕ × ℚ) (h : k' ≠ k) :
    lookupPair (acc ++ [(k, v)]) k' = lookupPair acc k' := by
  induction acc with
  | nil => simp [lookupPair, Ne.symm h]
  | cons p rest ih =>
      by_cases hp : p.1 = k'
      · simp [lookupPair, hp]
      · simp [lookupPair, hp, ih]

/-- A key absent from the grouping table looks up to the empty group. -/
theorem lookupPair_default_of_not_mem (acc : List (String × ℕ × ℚ)) (k : String)
    (h : acc.any (fun p => p.1 == k) = false) :
    lookupPair acc k = (0, 0) := by
  induction acc with
  | nil => rfl
  | cons p rest ih =>
      simp only [List.any_cons, Bool.or_eq_false_iff, beq_eq_false_iff_ne] at h
      simp [lookupPair, h.1, ih h.2]

/-- Appending a fresh `(k, v)` group makes `k` look up to `v`. -/
theorem lookupPair_append_self (acc : List (String × ℕ × ℚ)) (k : String)
    (v : ℕ × ℚ) (h : acc.any (fun p => p.1 == k) = false) :
    lookupPair (acc ++ [(k, v)]) k = v := by
  induction acc with
  | nil => simp [lookupPair]
  | cons p rest ih =>
      simp only [List.any_cons, Bool.or_eq_false_iff, beq_eq_false_iff_ne] at h
      simp [lookupPair, h.1, ih h.2]

/-- The in-place update of group `k` does not change other groups. -/
theorem lookupPair_map_inc_ne (acc : List (String × ℕ × ℚ)) (k k' : String)
    (c : ℚ) (h : k' ≠ k) :
    lookupPair
      (acc.map (fun p => if p.1 = k then (p.1, p.2.1 + 1, p.2.2 + c) else p)) k' =
      lookupPair acc k' := by
  induction acc with
  | nil => rfl
  | cons p rest ih =>
      by_cases hp : p.1 = k
      · have hpk' : ¬ p.1 = k' := by rw [hp]; exact Ne.symm h
        simp [lookupPair, hp, hpk', Ne.symm h, ih]
      · by_cases hp' : p.1 = k'
        · simp [lookupPair, hp, hp', h, ih]
        · simp [lookupPair, hp, hp', ih]

/-- The in-place update of a present group `k` bumps its count by 1 and its
confidence total by `c`. -/
theorem lookupPair_map_inc_self (acc : List (String × ℕ × ℚ)) (k : String)
    (c : ℚ) (h : acc.any (fun p => p.1 == k) = true) :
    lookupPair
      (acc.map (fun p => if p.1 = k then (p.1, p.2.1 + 1, p.2.2 + c) else p)) k =
      ((lookupPair acc k).1 + 1, (lookupPair acc k).2 + c) := by
  induction acc with
  | nil => simp at h
  | cons p rest ih =>
      by_cases hp : p.1 = k
      · simp [lookupPair, hp]
      · simp only [List.any_cons, Bool.or_eq_true] at h
        rcases h with h | h
        · exact absurd (by simpa using h) hp
        · simp [lookupPair, hp, ih h]

/-- One `bumpDet` step bumps exactly the touched group. -/
theorem lookupPair_bumpDet (acc : List (String × ℕ × ℚ)) (k k' : String) (c : ℚ) :
    lookupPair (bumpDet acc k c) k' =
      if k' = k then ((lookupPair acc k').1 + 1, (lookupPair acc k').2 + c)
      else lookupPair acc k' := by
  unfold bumpDet
  by_cases hmem : acc.any (fun p => p.1 == k) = true
  · by_cases hk : k' = k
    · subst hk
      simp [hmem, lookupPair_map_inc_self acc k' c hmem]
    · simp [hmem, hk, lookupPair_map_inc_ne acc k k' c hk]
  · rw [Bool.not_eq_true] at hmem
    by_cases hk : k' = k
    · subst hk
      simp [hmem, lookupPair_append_self acc k' (1, c) hmem,
        lookupPair_default_of_not_mem acc k' hmem]
    · simp [hmem, hk, lookupPair_append_ne acc k k' (1, c) hk]

/-- Folding `bumpDet` over a detection list counts and totals each label's
detections. -/
theorem lookupPair_foldl_bumpDet (dets : List Detection) :
    ∀ (acc : List (String × ℕ × ℚ)) (k : String),
      lookupPair (dets.foldl (fun a2 det => bumpDet a2 det.class_name det.conf) acc) k =
        ((lookupPair acc k).1 + (dets.filter (fun d => d.class_name == k)).length,
         (lookupPair acc k).2 +
           ((dets.filter (fun d => d.class_name == k)).map (fun d => d.conf)).sum) := by
  induction dets with
  | nil => intro acc k; simp
  | cons d dets ih =>
      intro acc k
      rw [List.foldl_cons, ih, lookupPair_bumpDet, List.filter_cons]
      by_cases hk : k = d.class_name
      · subst hk
        simp [Prod.ext_iff]
        constructor
        · omega
        · ring
      · have hd : ¬ (d.class_name == k) = true := by
          simp only [beq_iff_eq]
          exact fun hh => hk hh.symm
        simp [hk, hd]

/-- The double fold of `groupDetections` is the single fold over the
flattened detection list. -/
theorem groupDetections_eq_foldl_flatten (imgs : List PerImage) :
    groupDetections imgs =
      (allDetections imgs).foldl
        (fun a2 det => bumpDet a2 det.class_name det.conf) [] := by
  unfold groupDetections allDetections
  rw [List.foldl_flatten, List.foldl_map]

/-- Each group of `groupDetections` carries exactly the count and the
confidence total of its label's detections across all images. -/
theorem lookupPair_groupDetections (imgs : List PerImage) (k : String) :
    lookupPair (groupDetections imgs) k =
      (((allDetections imgs).filter (fun d => d.class_name == k)).length,
       (((allDetections imgs).filter (fun d => d.class_name == k)).map
         (fun d => d.conf)).sum) := by
  rw [groupDetections_eq_foldl_flatten, lookupPair_foldl_bumpDet]
  simp [lookupPair]

/-- Inserting an entry never disturbs the relative order of the entries of
any fixed count: the skipped prefix consists of strictly larger counts. -/
theorem filter_orderedInsert_count (a : DetEntry) (l : List DetEntry) (c : ℕ) :
    (List.orderedInsert countGE a l).filter (fun e => e.count == c) =
      if a.count = c then a :: l.filter (fun e => e.count == c)
      else l.filter (fun e => e.count == c) := by
  induction l with
  | nil =>
      by_cases hc : a.count = c <;> simp [List.orderedInsert, hc]
  | cons b l ih =>
      by_cases hr : countGE a b
      · by_cases hc : a.count = c <;>
          simp [List.orderedInsert, hr, List.filter_cons, hc]
      · have hb : b.count > a.count := Nat.lt_of_not_le hr
        simp only [List.orderedInsert, if_neg hr, List.filter_cons]
        by_cases hc : a.count = c
        · have hbc : ¬ (b.count == c) = true := by
            simp only [beq_iff_eq]
            omega
          simp [hbc, ih, hc]
        · by_cases hbc : (b.count == c) = true
          · simp [hbc, ih, hc]
          · simp [hbc, ih, hc]

/-- Insertion sort is stable: the subsequence of entries of any fixed count
is unchanged, so equal counts keep their first-seen order. -/
theorem filter_insertionSort_count (l : List DetEntry) (c : ℕ) :
    (List.insertionSort countGE l).filter (fun e => e.count == c) =
      l.filter (fun e => e.count == c) := by
  induction l with
  | nil => rfl
  | cons a l ih =>
      rw [List.insertionSort, filter_orderedInsert_count, List.filter_cons]
      by_cases hc : a.count = c
      · have : (a.count == c) = true := by simp [hc]
        simp [hc, this, ih]
      · have : ¬ (a.count == c) = true := by simp [hc]
        simp [hc, this, ih]

/-- C8 (amended): `detectionDistribution` groups all detections across all
`perImage` entries by `className`; each chart entry carries the group's
count and mean confidence as a rounded percentage, but its label is the
`className` with its FIRST CHARACTER UPPERCASED (the remainder preserved),
not the label exactly as given; entries are sorted by count descending with
ties in first-seen label order (the sort is stable). -/
theorem C8_detection_distribution (a : AnalysisResult) :
    List.Sorted countGE (detectionData (some a)) ∧
    (detectionData (some a)).Perm ((groupDetections a.images).map detEntryOf) ∧
    (∀ c : ℕ, (detectionData (some a)).filter (fun e => e.count == c) =
      ((groupDetections a.images).map detEntryOf).filter (fun e => e.count == c)) ∧
    (∀ k : String, lookupPair (groupDetections a.images) k =
      (((allDetections a.images).filter (fun d => d.class_name == k)).length,
       (((allDetections a.images).filter (fun d => d.class_name == k)).map
         (fun d => d.conf)).sum)) := by
  refine ⟨?_, ?_, ?_, ?_⟩
  · exact List.sorted_insertionSort countGE _
  · exact List.perm_insertionSort countGE _
  · intro c
    exact filter_insertionSort_count _ c
  · intro k
    exact lookupPair_groupDetections a.images k

/-- C8 counterexample: a single detection labelled "person" is charted as
"Person" — the label's case is not preserved. -/
theorem C8_counterexample :
    (detectionData (some ⟨sampleSummary, [perImageOf "a" [detOf "person" 1]]⟩)).map
      (fun e => e.name) = ["Person"] ∧
    (detectionData (some ⟨sampleSummary, [perImageOf "a" [detOf "person" 1]]⟩)).map
      (fun e => e.name) ≠ ["person"] := by
  have h : detectionData (some ⟨sampleSummary, [perImageOf "a" [detOf "person" 1]]⟩) =
      [⟨"Person", 1, 100⟩] := by
    simp [detectionData, groupDetections, bumpDet, detEntryOf, capFirst, detOf,
      perImageOf, List.insertionSort, List.orderedInsert]
  rw [h]
  exact ⟨rfl, by decide⟩

end UVA
